import Mathlib

/-!
Verification of the UI render core (`crates/bevy_ui/src/render/`): a shallow
embedding of the per-frame batching path (`prepare_uinodes` in `render/mod.rs`),
the material preparation cache (`prepare_ui_materials` in `render/ui_material.rs`),
the queue stage (`queue_uinodes`), the pipeline key (`render/pipeline.rs`) and the
pass executor (`render/render_pass.rs`).

Scalar values (`f32` in the source) are embedded as rationals `ℚ`; the properties
checked here are order-theoretic and exact, not dependent on rounding.  Asset
handles (`Handle<Image>`, `HandleUntyped`) are embedded as `Nat` identifiers:
the source only ever clones them weakly and compares them for equality.
-/

/-- Embedding of `glam::Vec2` restricted to the operations the source uses. -/
structure Vec2 where
  x : ℚ
  y : ℚ
deriving DecidableEq

/-- Embedding of `glam::Vec3`. -/
structure Vec3 where
  x : ℚ
  y : ℚ
  z : ℚ
deriving DecidableEq

/-- Embedding of `glam::Vec4` (also used for linear RGBA colors, `w` = alpha). -/
structure Vec4 where
  x : ℚ
  y : ℚ
  z : ℚ
  w : ℚ
deriving DecidableEq

/-- Embedding of `glam::Mat4` in column-major form, exactly as `bevy_math::Mat4`
stores it: four column vectors `x_axis`, `y_axis`, `z_axis`, `w_axis`. -/
structure Mat4 where
  x_axis : Vec4
  y_axis : Vec4
  z_axis : Vec4
  w_axis : Vec4
deriving DecidableEq

/-- `transform * pos.extend(1.0)` followed by `.xyz()`, as used on quad corners in
`prepare_uinodes` (mod.rs line 260). -/
def Mat4.mulPoint (m : Mat4) (v : Vec3) : Vec3 :=
  ⟨m.x_axis.x * v.x + m.y_axis.x * v.y + m.z_axis.x * v.z + m.w_axis.x,
   m.x_axis.y * v.x + m.y_axis.y * v.y + m.z_axis.y * v.z + m.w_axis.y,
   m.x_axis.z * v.x + m.y_axis.z * v.y + m.z_axis.z * v.z + m.w_axis.z⟩

/-- `Mat4::transform_vector3`: multiplication by the linear (upper 3×3) part only,
no translation (mod.rs line 294). -/
def Mat4.transformVector3 (m : Mat4) (v : Vec3) : Vec3 :=
  ⟨m.x_axis.x * v.x + m.y_axis.x * v.y + m.z_axis.x * v.z,
   m.x_axis.y * v.x + m.y_axis.y * v.y + m.z_axis.y * v.z,
   m.x_axis.z * v.x + m.y_axis.z * v.y + m.z_axis.z * v.z⟩

/-- Embedding of `bevy_math::Rect` (origin `min`, corner `max`). -/
structure Rect where
  min : Vec2
  max : Vec2
deriving DecidableEq

/-- Embedding of `ExtractedUiNode` (ui_material.rs lines 258-269).  Handles are
`Nat` identifiers; `color` is the linear RGBA value. -/
structure ExtractedUiNode where
  stack_index : Nat
  transform : Mat4
  color : Vec4
  rect : Rect
  image : Nat
  material : Nat
  atlas_size : Option Vec2
  clip : Option Rect
  flip_x : Bool
  flip_y : Bool
deriving DecidableEq

/-- A quadruple of per-corner values (the source uses 4-element arrays indexed by
the four logical quad corners). -/
structure Corners (α : Type) where
  c0 : α
  c1 : α
  c2 : α
  c3 : α
deriving DecidableEq

def Corners.map {α β : Type} (f : α → β) (c : Corners α) : Corners β :=
  ⟨f c.c0, f c.c1, f c.c2, f c.c3⟩

/-- `QUAD_VERTEX_POSITIONS` (mod.rs lines 204-209). -/
def QUAD_VERTEX_POSITIONS : Corners Vec3 :=
  ⟨⟨-(1/2), -(1/2), 0⟩, ⟨1/2, -(1/2), 0⟩, ⟨1/2, 1/2, 0⟩, ⟨-(1/2), 1/2, 0⟩⟩

/-- `uinode_rect.size().extend(1.0)` (mod.rs line 256). -/
def rectSize (r : Rect) : Vec3 :=
  ⟨r.max.x - r.min.x, r.max.y - r.min.y, 1⟩

/-- The four world-space corners of a node's quad (mod.rs lines 259-260):
each unit-square corner is scaled by the node rect size and transformed. -/
def positionsOf (n : ExtractedUiNode) : Corners Vec3 :=
  QUAD_VERTEX_POSITIONS.map fun p =>
    n.transform.mulPoint ⟨p.x * (rectSize n.rect).x, p.y * (rectSize n.rect).y,
      p.z * (rectSize n.rect).z⟩

/-- The per-corner clip deltas computed from a clip rect and four corner
positions (mod.rs lines 264-282), in the exact min/max pattern of the source. -/
def clipDeltas (clip : Rect) (ps : Corners Vec3) : Corners Vec2 :=
  ⟨⟨max (clip.min.x - ps.c0.x) 0, max (clip.min.y - ps.c0.y) 0⟩,
   ⟨min (clip.max.x - ps.c1.x) 0, max (clip.min.y - ps.c1.y) 0⟩,
   ⟨min (clip.max.x - ps.c2.x) 0, min (clip.max.y - ps.c2.y) 0⟩,
   ⟨max (clip.min.x - ps.c3.x) 0, min (clip.max.y - ps.c3.y) 0⟩⟩

/-- All-zero deltas (the `[Vec2::ZERO; 4]` branch when no clip rect is present). -/
def zeroDeltas : Corners Vec2 := ⟨⟨0, 0⟩, ⟨0, 0⟩, ⟨0, 0⟩, ⟨0, 0⟩⟩

/-- `positions_diff` (mod.rs lines 264-285). -/
def positionsDiffOf (n : ExtractedUiNode) : Corners Vec2 :=
  match n.clip with
  | some clip => clipDeltas clip (positionsOf n)
  | none => zeroDeltas

/-- `positions[i] + positions_diff[i].extend(0.)`. -/
def applyDeltas (ps : Corners Vec3) (d : Corners Vec2) : Corners Vec3 :=
  ⟨⟨ps.c0.x + d.c0.x, ps.c0.y + d.c0.y, ps.c0.z⟩,
   ⟨ps.c1.x + d.c1.x, ps.c1.y + d.c1.y, ps.c1.z⟩,
   ⟨ps.c2.x + d.c2.x, ps.c2.y + d.c2.y, ps.c2.z⟩,
   ⟨ps.c3.x + d.c3.x, ps.c3.y + d.c3.y, ps.c3.z⟩⟩

/-- One application of the clip adjustment to four corner positions. -/
def clipOnce (clip : Rect) (ps : Corners Vec3) : Corners Vec3 :=
  applyDeltas ps (clipDeltas clip ps)

/-- `positions_clipped` (mod.rs lines 287-292). -/
def positionsClippedOf (n : ExtractedUiNode) : Corners Vec3 :=
  applyDeltas (positionsOf n) (positionsDiffOf n)

/-- `transformed_rect_size` (mod.rs line 294). -/
def transformedRectSize (n : ExtractedUiNode) : Vec3 :=
  n.transform.transformVector3 (rectSize n.rect)

/-- The cull decision of `prepare_uinodes` (mod.rs lines 296-309): the test runs
only when `transform.x_axis[1] == 0.0`; it discards the node when the clip
deltas collapse the transformed width or height to zero or less. -/
def culled (n : ExtractedUiNode) : Bool :=
  decide (n.transform.x_axis.y = 0) &&
    (decide ((transformedRectSize n).x ≤
        (positionsDiffOf n).c0.x - (positionsDiffOf n).c1.x) ||
     decide ((transformedRectSize n).y ≤
        (positionsDiffOf n).c1.y - (positionsDiffOf n).c2.y))

/-- `atlas_extent` (mod.rs line 311). -/
def atlasExtent (n : ExtractedUiNode) : Vec2 :=
  n.atlas_size.getD n.rect.max

/-- The per-corner UVs (mod.rs lines 312-337): rect corners offset by the clip
deltas, normalized by the atlas extent, then permuted by the flip flags. -/
def uvsOf (n : ExtractedUiNode) : Corners Vec2 :=
  let d := positionsDiffOf n
  let r := n.rect
  let e := atlasExtent n
  let base : Corners Vec2 :=
    ⟨⟨(r.min.x + d.c0.x) / e.x, (r.min.y + d.c0.y) / e.y⟩,
     ⟨(r.max.x + d.c1.x) / e.x, (r.min.y + d.c1.y) / e.y⟩,
     ⟨(r.max.x + d.c2.x) / e.x, (r.max.y + d.c2.y) / e.y⟩,
     ⟨(r.min.x + d.c3.x) / e.x, (r.max.y + d.c3.y) / e.y⟩⟩
  let fx : Corners Vec2 :=
    if n.flip_x then ⟨base.c1, base.c0, base.c3, base.c2⟩ else base
  if n.flip_y then ⟨fx.c3, fx.c2, fx.c1, fx.c0⟩ else fx

/-- Embedding of `UiVertex` (mod.rs lines 181-187). -/
structure UiVertex where
  position : Vec3
  uv : Vec2
  color : Vec4
deriving DecidableEq

/-- The six vertices one surviving quad pushes, following
`QUAD_INDICES = [0, 2, 3, 0, 1, 2]` (mod.rs lines 211, 340-346). -/
def quadVertices (n : ExtractedUiNode) : List UiVertex :=
  [⟨(positionsClippedOf n).c0, (uvsOf n).c0, n.color⟩,
   ⟨(positionsClippedOf n).c2, (uvsOf n).c2, n.color⟩,
   ⟨(positionsClippedOf n).c3, (uvsOf n).c3, n.color⟩,
   ⟨(positionsClippedOf n).c0, (uvsOf n).c0, n.color⟩,
   ⟨(positionsClippedOf n).c1, (uvsOf n).c1, n.color⟩,
   ⟨(positionsClippedOf n).c2, (uvsOf n).c2, n.color⟩]

/-- Embedding of `UiBatch` (ui_material.rs lines 424-430): the half-open vertex
range `rangeStart..rangeEnd`, the two handles, the representative depth. -/
structure UiBatch where
  rangeStart : Nat
  rangeEnd : Nat
  image : Nat
  material : Nat
  z : ℚ
deriving DecidableEq

/-- The loop state of `prepare_uinodes` (mod.rs lines 235-239), plus the
accumulated vertex buffer and spawned batches. -/
structure PrepState where
  start : Nat
  stop : Nat
  curImage : Nat
  curMaterial : Nat
  lastZ : ℚ
  batches : List UiBatch
  verts : List UiVertex
deriving DecidableEq

/-- The batch-bookkeeping prefix of one loop iteration (mod.rs lines 241-253):
on a key change, emit the open batch if it is non-empty, then adopt the new
node's handles as the current batch key. -/
def updateBatchKey (st : PrepState) (n : ExtractedUiNode) : PrepState :=
  if st.curImage ≠ n.image ∨ st.curMaterial ≠ n.material then
    let st2 :=
      if st.start ≠ st.stop then
        { st with
          batches := st.batches ++
            [⟨st.start, st.stop, st.curImage, st.curMaterial, st.lastZ⟩],
          start := st.stop }
      else st
    { st2 with curImage := n.image, curMaterial := n.material }
  else st

/-- One full loop iteration of `prepare_uinodes` (mod.rs lines 240-350):
batch bookkeeping, then the cull test (`continue` keeps the state as-is),
then pushing 6 vertices and advancing `end` and `last_z`. -/
def processNode (st : PrepState) (n : ExtractedUiNode) : PrepState :=
  let st1 := updateBatchKey st n
  if culled n then st1
  else
    { st1 with
      verts := st1.verts ++ quadVertices n,
      lastZ := n.transform.w_axis.z,
      stop := st1.stop + 6 }

/-- The relation used to sort extracted nodes: ascending `stack_index`
(mod.rs lines 223-225). -/
def stackLe (a b : ExtractedUiNode) : Prop :=
  a.stack_index ≤ b.stack_index

instance : DecidableRel stackLe := fun a b => Nat.decLe a.stack_index b.stack_index

instance : IsTotal ExtractedUiNode stackLe := ⟨fun _ _ => Nat.le_total _ _⟩

instance : IsTrans ExtractedUiNode stackLe := ⟨fun _ _ _ => Nat.le_trans⟩

/-- The stable sort by `stack_index` (`sort_by_key` in mod.rs lines 222-225;
Rust's `sort_by_key` is a stable sort, embedded here as insertion sort, which
is stable and sorted w.r.t. `stackLe`). -/
def sortNodes (l : List ExtractedUiNode) : List ExtractedUiNode :=
  l.insertionSort stackLe

/-- The final flush after the loop (mod.rs lines 352-360): spawn one last batch
when the open range is non-empty. -/
def closeBatch (st : PrepState) : List UiBatch :=
  if st.start ≠ st.stop then
    [⟨st.start, st.stop, st.curImage, st.curMaterial, st.lastZ⟩]
  else []

/-- Embedding of `prepare_uinodes` (mod.rs lines 213-363).  Returns the spawned
`UiBatch` list, in spawn order, paired with the vertex buffer contents.  An
empty extracted list returns early with no batches and a cleared buffer. -/
def prepare_uinodes (nodes : List ExtractedUiNode) :
    List UiBatch × List UiVertex :=
  match sortNodes nodes with
  | [] => ([], [])
  | first :: rest =>
    let st := (first :: rest).foldl processNode
      ⟨0, 0, first.image, first.material, 0, [], []⟩
    (st.batches ++ closeBatch st, st.verts)

/-- The batch key `(image, material)` of an extracted record. -/
def nodeKey (n : ExtractedUiNode) : Nat × Nat := (n.image, n.material)

/-- The batch key `(image, material)` of an emitted batch. -/
def batchKey (b : UiBatch) : Nat × Nat := (b.image, b.material)

/-! ### Run decomposition of the sorted sequence

The loop in `prepare_uinodes` is characterised below against a structural
specification: the sorted record sequence decomposes into maximal runs of
equal `(image, material)` key (`chunkRuns`), and the emitted batches are
exactly the runs containing at least one surviving (non-culled) record, with
cumulative vertex ranges (`runsSpec`). -/

/-- The number of vertices one record contributes (6 if it survives the cull
test, 0 otherwise). -/
def vcount (n : ExtractedUiNode) : Nat :=
  if culled n then 0 else 6

/-- The number of surviving (non-culled) records of a list. -/
def countSurv (l : List ExtractedUiNode) : Nat :=
  (l.filter fun n => !culled n).length

/-- Boolean test that a record carries the batch key `(img, mat)`. -/
def sameKey (img mat : Nat) (m : ExtractedUiNode) : Bool :=
  m.image == img && m.material == mat

/-- Auxiliary bound used for termination of `chunkRuns`. -/
theorem dropWhile_len_le {α : Type} (p : α → Bool) :
    ∀ l : List α, (l.dropWhile p).length ≤ l.length := by
  intro l
  induction l with
  | nil => simp [List.dropWhile]
  | cons a t ih =>
    by_cases h : p a
    · simpa [List.dropWhile, h] using Nat.le_succ_of_le ih
    · simp [List.dropWhile, h]

/-- The decomposition of a record list into maximal runs of equal batch key. -/
def chunkRuns : List ExtractedUiNode → List (List ExtractedUiNode)
  | [] => []
  | n :: t =>
    (n :: t.takeWhile (sameKey n.image n.material)) ::
      chunkRuns (t.dropWhile (sameKey n.image n.material))
termination_by l => l.length
decreasing_by
  simp only [List.length_cons]
  exact Nat.lt_succ_of_le (dropWhile_len_le _ _)

/-- The batch key of a run (key of its first record). -/
def runKey : List ExtractedUiNode → Nat × Nat
  | [] => (0, 0)
  | n :: _ => nodeKey n

/-- A batch with the depth payload erased: vertex range and key only. -/
structure BatchA where
  lo : Nat
  hi : Nat
  img : Nat
  mat : Nat
deriving DecidableEq

/-- Forget a batch's depth value. -/
def batchAbs (b : UiBatch) : BatchA :=
  ⟨b.rangeStart, b.rangeEnd, b.image, b.material⟩

/-- The expected batch list for a run decomposition: one batch per run with a
surviving record, with consecutive vertex ranges of 6 vertices per survivor. -/
def runsSpec (pos : Nat) : List (List ExtractedUiNode) → List BatchA
  | [] => []
  | r :: rs =>
    if countSurv r = 0 then runsSpec pos rs
    else ⟨pos, pos + 6 * countSurv r, (runKey r).1, (runKey r).2⟩ ::
      runsSpec (pos + 6 * countSurv r) rs

/-- Close the currently open batch range, if non-empty (depth erased). -/
def closeA (lo hi img mat : Nat) : List BatchA :=
  if lo ≠ hi then [⟨lo, hi, img, mat⟩] else []

/-- Structural re-statement of the batching loop: process a record list from an
open state (current key `(img, mat)`, open range `lo..hi`), returning the
batches emitted from here on, final flush included. -/
def specFrom (img mat lo hi : Nat) : List ExtractedUiNode → List BatchA
  | [] => closeA lo hi img mat
  | n :: t =>
    if img ≠ n.image ∨ mat ≠ n.material then
      closeA lo hi img mat ++ specFrom n.image n.material hi (hi + vcount n) t
    else
      specFrom img mat lo (hi + vcount n) t

/-- `tiles pos bs total`: the ranges of `bs` are non-empty and consecutive,
starting at `pos` and ending exactly at `total` — no gaps, no overlaps. -/
def tiles : Nat → List BatchA → Nat → Prop
  | pos, [], total => pos = total
  | pos, b :: bs, total => b.lo = pos ∧ pos < b.hi ∧ tiles b.hi bs total

/-- `updateBatchKey` never touches the vertex buffer or the running end. -/
theorem updateBatchKey_verts_stop (st : PrepState) (n : ExtractedUiNode) :
    (updateBatchKey st n).verts = st.verts ∧
      (updateBatchKey st n).stop = st.stop ∧
      (updateBatchKey st n).lastZ = st.lastZ := by
  unfold updateBatchKey
  split
  · split <;> simp
  · simp

/-- Depth-erased closing of a state agrees with `closeA`. -/
theorem closeBatch_abs (st : PrepState) :
    (closeBatch st).map batchAbs = closeA st.start st.stop st.curImage st.curMaterial := by
  unfold closeBatch closeA
  split <;> simp [batchAbs]

/-- Characterisation of the batching loop: folding `processNode` from any state
and flushing yields the already-emitted batches followed by `specFrom` on the
remaining records. -/
theorem foldl_processNode_batches (l : List ExtractedUiNode) :
    ∀ st : PrepState,
      ((l.foldl processNode st).batches ++ closeBatch (l.foldl processNode st)).map batchAbs =
        st.batches.map batchAbs ++ specFrom st.curImage st.curMaterial st.start st.stop l := by
  induction l with
  | nil =>
    intro st
    simp [specFrom, closeBatch_abs]
  | cons n t ih =>
    intro st
    rw [List.foldl_cons, ih]
    by_cases hk : st.curImage ≠ n.image ∨ st.curMaterial ≠ n.material
    · by_cases hs : st.start ≠ st.stop
      · by_cases hc : culled n <;>
          simp [processNode, updateBatchKey, hk, hs, hc, specFrom, vcount, closeA, batchAbs]
      · by_cases hc : culled n <;>
          simp [processNode, updateBatchKey, hk, hs, hc, specFrom, vcount, closeA,
            batchAbs, not_ne_iff.mp hs]
    · by_cases hc : culled n <;>
        simp [processNode, updateBatchKey, hk, hc, specFrom, vcount]

/-- The vertex buffer after the loop: the 6-vertex quads of the surviving
records, in order. -/
theorem foldl_processNode_verts (l : List ExtractedUiNode) :
    ∀ st : PrepState,
      (l.foldl processNode st).verts =
        st.verts ++ ((l.filter fun n => !culled n).map quadVertices).flatten := by
  induction l with
  | nil => intro st; simp
  | cons n t ih =>
    intro st
    rw [List.foldl_cons, ih]
    by_cases hc : culled n <;>
      simp [processNode, (updateBatchKey_verts_stop st n).1, hc, List.filter_cons]

theorem countSurv_nil : countSurv [] = 0 := rfl

theorem countSurv_cons (n : ExtractedUiNode) (l : List ExtractedUiNode) :
    countSurv (n :: l) = (if culled n then 0 else 1) + countSurv l := by
  by_cases hc : culled n <;> simp [countSurv, List.filter_cons, hc, Nat.add_comm]

theorem vcount_countSurv (n : ExtractedUiNode) (hi c : Nat) :
    hi + vcount n + 6 * c = hi + 6 * countSurv [n] + 6 * c := by
  by_cases hc : culled n <;> simp [vcount, countSurv, List.filter_cons, hc]

theorem chunkRuns_nil : chunkRuns [] = [] := by
  rw [chunkRuns]

theorem chunkRuns_cons (n : ExtractedUiNode) (t : List ExtractedUiNode) :
    chunkRuns (n :: t) =
      (n :: t.takeWhile (sameKey n.image n.material)) ::
        chunkRuns (t.dropWhile (sameKey n.image n.material)) := by
  rw [chunkRuns]

/-- `sameKey` read back as a proposition. -/
theorem sameKey_iff (img mat : Nat) (m : ExtractedUiNode) :
    sameKey img mat m = true ↔ (m.image = img ∧ m.material = mat) := by
  simp [sameKey]

/-- The branch condition of `specFrom`/`updateBatchKey` is the negation of
`sameKey`. -/
theorem key_change_iff (img mat : Nat) (m : ExtractedUiNode) :
    (img ≠ m.image ∨ mat ≠ m.material) ↔ ¬ sameKey img mat m = true := by
  simp [sameKey]
  tauto

/-- `specFrom` against the run decomposition: processing from an open region
`lo..hi` under key `(img, mat)` first absorbs the records extending the current
run, closes it, and then emits exactly `runsSpec` of the remaining runs. -/
theorem specFrom_split (l : List ExtractedUiNode) :
    ∀ img mat lo hi,
      specFrom img mat lo hi l =
        closeA lo (hi + 6 * countSurv (l.takeWhile (sameKey img mat))) img mat ++
          runsSpec (hi + 6 * countSurv (l.takeWhile (sameKey img mat)))
            (chunkRuns (l.dropWhile (sameKey img mat))) := by
  induction l with
  | nil =>
    intro img mat lo hi
    simp [specFrom, countSurv_nil, chunkRuns_nil, runsSpec]
  | cons n t ih =>
    intro img mat lo hi
    by_cases hsk : sameKey img mat n = true
    · have hcond : ¬ (img ≠ n.image ∨ mat ≠ n.material) := by
        rw [key_change_iff]; simp [hsk]
      rw [List.takeWhile_cons, List.dropWhile_cons]
      simp only [if_pos hsk]
      rw [specFrom, if_neg hcond]
      rw [ih img mat lo (hi + vcount n), countSurv_cons]
      by_cases hc : culled n <;> simp [vcount, hc] <;> ring_nf
    · have hcond : img ≠ n.image ∨ mat ≠ n.material := by
        rw [key_change_iff]; simp [hsk]
      rw [List.takeWhile_cons, List.dropWhile_cons]
      simp only [if_neg hsk]
      rw [specFrom, if_pos hcond]
      rw [ih n.image n.material hi (hi + vcount n)]
      rw [chunkRuns_cons]
      simp only [countSurv_nil, Nat.mul_zero, Nat.add_zero]
      conv_rhs => rw [runsSpec]
      have hkey : runKey (n :: t.takeWhile (sameKey n.image n.material)) =
          (n.image, n.material) := by simp [runKey, nodeKey]
      by_cases h0 : countSurv (n :: t.takeWhile (sameKey n.image n.material)) = 0
      · have hvc : hi + vcount n +
            6 * countSurv (t.takeWhile (sameKey n.image n.material)) = hi := by
          rw [countSurv_cons] at h0
          by_cases hc : culled n
          · simp [hc] at h0; simp [vcount, hc, h0]
          · simp [hc] at h0
        rw [hvc]
        simp [h0, closeA]
      · have hvc : hi + vcount n +
            6 * countSurv (t.takeWhile (sameKey n.image n.material)) =
            hi + 6 * countSurv (n :: t.takeWhile (sameKey n.image n.material)) := by
          rw [countSurv_cons]
          by_cases hc : culled n <;> simp [vcount, hc] <;> ring
        rw [hvc, hkey]
        have hne : hi ≠ hi + 6 * countSurv (n :: t.takeWhile (sameKey n.image n.material)) := by
          omega
        simp [closeA, h0, hne]

/-- Auxiliary: all chunkRuns facts proved by strong induction on length. -/
theorem chunkRuns_facts_aux :
    ∀ (N : Nat) (l : List ExtractedUiNode), l.length ≤ N →
      (chunkRuns l).flatten = l ∧
      (∀ r ∈ chunkRuns l, r ≠ [] ∧ ∀ m ∈ r, nodeKey m = runKey r) ∧
      List.Chain' (fun a b => runKey a ≠ runKey b) (chunkRuns l) := by
  intro N
  induction N with
  | zero =>
    intro l hl
    have : l = [] := List.length_eq_zero.mp (Nat.le_zero.mp hl)
    subst this
    simp [chunkRuns_nil]
  | succ N ih =>
    intro l hl
    match l with
    | [] => simp [chunkRuns_nil]
    | n :: t =>
      rw [chunkRuns_cons]
      have hlen : (t.dropWhile (sameKey n.image n.material)).length ≤ N := by
        have h1 := dropWhile_len_le (sameKey n.image n.material) t
        have h2 : t.length ≤ N := by
          simpa [Nat.succ_le_succ_iff] using hl
        omega
      obtain ⟨ihj, ihm, ihc⟩ := ih _ hlen
      refine ⟨?_, ?_, ?_⟩
      · simp only [List.flatten_cons, ihj, List.cons_append]
        rw [List.takeWhile_append_dropWhile]
      · intro r hr
        rcases List.mem_cons.mp hr with h | h
        · subst h
          refine ⟨by simp, ?_⟩
          intro m hm
          rcases List.mem_cons.mp hm with h | h
          · subst h; simp [runKey]
          · have := List.mem_takeWhile_imp h
            rw [sameKey_iff] at this
            simp [runKey, nodeKey, this.1, this.2]
        · exact ihm r h
      · rw [List.chain'_cons']
        refine ⟨?_, ihc⟩
        intro b hb
        match hdw : t.dropWhile (sameKey n.image n.material) with
        | [] => rw [hdw, chunkRuns_nil] at hb; simp at hb
        | m :: t2 =>
          rw [hdw, chunkRuns_cons] at hb
          simp only [List.head?_cons, Option.mem_def, Option.some.injEq] at hb
          subst hb
          have hpm : ¬ sameKey n.image n.material m = true := by
            have := List.head?_dropWhile_not (sameKey n.image n.material) t
            rw [hdw] at this
            simp at this
            simp [this]
          rw [sameKey_iff] at hpm
          simp only [runKey, nodeKey]
          intro hcontr
          exact hpm ⟨congrArg Prod.fst hcontr.symm, congrArg Prod.snd hcontr.symm⟩

theorem countSurv_append (a b : List ExtractedUiNode) :
    countSurv (a ++ b) = countSurv a + countSurv b := by
  simp [countSurv, List.filter_append]

theorem countSurv_flatten (rs : List (List ExtractedUiNode)) :
    countSurv rs.flatten = (rs.map countSurv).sum := by
  induction rs with
  | nil => simp [countSurv]
  | cons r t ih => simp [countSurv_append, ih]

/-- The ranges produced by `runsSpec` tile `[pos, pos + 6 * total survivors)`. -/
theorem tiles_runsSpec (runs : List (List ExtractedUiNode)) :
    ∀ pos, tiles pos (runsSpec pos runs) (pos + 6 * (runs.map countSurv).sum) := by
  induction runs with
  | nil => intro pos; simp [runsSpec, tiles]
  | cons r rs ih =>
    intro pos
    rw [runsSpec]
    by_cases h0 : countSurv r = 0
    · simpa [h0] using ih pos
    · rw [if_neg h0, tiles]
      refine ⟨rfl, ?_, ?_⟩
      · show pos < pos + 6 * countSurv r
        omega
      have := ih (pos + 6 * countSurv r)
      have harith : pos + 6 * countSurv r + 6 * (rs.map countSurv).sum =
          pos + 6 * ((r :: rs).map countSurv).sum := by
        simp [List.map_cons]; ring
      rw [← harith]
      exact this

/-- Every batch `runsSpec` emits has a non-empty range. -/
theorem runsSpec_lo_lt_hi (runs : List (List ExtractedUiNode)) :
    ∀ pos, ∀ b ∈ runsSpec pos runs, b.lo < b.hi := by
  induction runs with
  | nil => intro pos b hb; simp [runsSpec] at hb
  | cons r rs ih =>
    intro pos b hb
    rw [runsSpec] at hb
    by_cases h0 : countSurv r = 0
    · rw [if_pos h0] at hb; exact ih pos b hb
    · rw [if_neg h0] at hb
      rcases List.mem_cons.mp hb with h | h
      · subst h
        show pos < pos + 6 * countSurv r
        omega
      · exact ih _ b h

/-- When every run has a survivor, `runsSpec` emits one batch per run carrying
that run's key. -/
theorem runsSpec_keys_total (runs : List (List ExtractedUiNode))
    (hall : ∀ r ∈ runs, countSurv r ≠ 0) :
    ∀ pos, (runsSpec pos runs).map (fun b => (b.img, b.mat)) = runs.map runKey := by
  induction runs with
  | nil => intro pos; simp [runsSpec]
  | cons r rs ih =>
    intro pos
    rw [runsSpec, if_neg (hall r (List.mem_cons_self r rs))]
    simp only [List.map_cons]
    rw [ih (fun a ha => hall a (List.mem_cons_of_mem r ha))]

/-- A freshly keyed `specFrom` run produces exactly the `runsSpec` batches. -/
theorem specFrom_fresh (n : ExtractedUiNode) (t : List ExtractedUiNode) (hi : Nat) :
    specFrom n.image n.material hi hi (n :: t) = runsSpec hi (chunkRuns (n :: t)) := by
  rw [specFrom_split]
  have hsk : sameKey n.image n.material n = true := by simp [sameKey]
  rw [List.takeWhile_cons, List.dropWhile_cons]
  simp only [if_pos hsk]
  rw [chunkRuns_cons]
  conv_rhs => rw [runsSpec]
  have hkey : runKey (n :: t.takeWhile (sameKey n.image n.material)) =
      (n.image, n.material) := by simp [runKey, nodeKey]
  by_cases h0 : countSurv (n :: t.takeWhile (sameKey n.image n.material)) = 0
  · rw [h0]
    simp [closeA]
  · rw [hkey]
    have hne : hi ≠ hi + 6 * countSurv (n :: t.takeWhile (sameKey n.image n.material)) := by
      omega
    simp [closeA, h0, hne]

/-- The batches of `prepare_uinodes`, depth erased, are exactly `runsSpec` of
the run decomposition of the sorted sequence. -/
theorem prepare_uinodes_batchAbs (nodes : List ExtractedUiNode) :
    (prepare_uinodes nodes).1.map batchAbs =
      runsSpec 0 (chunkRuns (sortNodes nodes)) := by
  match hs : sortNodes nodes with
  | [] =>
    simp [prepare_uinodes, hs, chunkRuns_nil, runsSpec]
  | first :: rest =>
    have hfold := foldl_processNode_batches (first :: rest)
      ⟨0, 0, first.image, first.material, 0, [], []⟩
    simp only [prepare_uinodes, hs]
    rw [hfold]
    simp only [List.map_nil, List.nil_append]
    exact specFrom_fresh first rest 0

/-- The vertex buffer of `prepare_uinodes` is the concatenation of the quads of
the surviving sorted records. -/
theorem prepare_uinodes_verts (nodes : List ExtractedUiNode) :
    (prepare_uinodes nodes).2 =
      (((sortNodes nodes).filter fun n => !culled n).map quadVertices).flatten := by
  match hs : sortNodes nodes with
  | [] => simp [prepare_uinodes, hs]
  | first :: rest =>
    have hfold := foldl_processNode_verts (first :: rest)
      ⟨0, 0, first.image, first.material, 0, [], []⟩
    simp only [prepare_uinodes, hs]
    rw [hfold]
    simp

theorem flatten_quads_length (l : List ExtractedUiNode) :
    ((l.map quadVertices).flatten).length = 6 * l.length := by
  induction l with
  | nil => simp
  | cons n t ih => simp [quadVertices, ih]; ring

/-- C1: after `prepare_uinodes` stable-sorts the extracted records by
`stack_index` ascending, the emitted `UiBatch` list partitions the sorted
sequence into its maximal runs of equal `(image, material)` key — one batch per
run containing at least one surviving record, carrying that run's key — and the
batch ranges, in emission order, tile the vertex buffer built from the
surviving quads (6 vertices per quad) with no gaps or overlaps: the first
range starts at 0, each range is non-empty and starts where the previous one
ends, and the last range ends exactly at the buffer length. -/
theorem c1_batches_partition_and_tile (nodes : List ExtractedUiNode) :
    List.Sorted stackLe (sortNodes nodes) ∧
    (sortNodes nodes).Perm nodes ∧
    (prepare_uinodes nodes).2 =
      (((sortNodes nodes).filter fun n => !culled n).map quadVertices).flatten ∧
    (prepare_uinodes nodes).2.length = 6 * countSurv (sortNodes nodes) ∧
    (chunkRuns (sortNodes nodes)).flatten = sortNodes nodes ∧
    (∀ r ∈ chunkRuns (sortNodes nodes), r ≠ [] ∧ ∀ m ∈ r, nodeKey m = runKey r) ∧
    List.Chain' (fun a b => runKey a ≠ runKey b) (chunkRuns (sortNodes nodes)) ∧
    (prepare_uinodes nodes).1.map batchAbs =
      runsSpec 0 (chunkRuns (sortNodes nodes)) ∧
    tiles 0 ((prepare_uinodes nodes).1.map batchAbs)
      (6 * countSurv (sortNodes nodes)) := by
  obtain ⟨hj, hm, hc⟩ :=
    chunkRuns_facts_aux (sortNodes nodes).length (sortNodes nodes) (Nat.le_refl _)
  refine ⟨List.sorted_insertionSort stackLe nodes, List.perm_insertionSort stackLe nodes,
    prepare_uinodes_verts nodes, ?_, hj, hm, hc, prepare_uinodes_batchAbs nodes, ?_⟩
  · rw [prepare_uinodes_verts nodes, flatten_quads_length]
    rfl
  · rw [prepare_uinodes_batchAbs nodes]
    have := tiles_runsSpec (chunkRuns (sortNodes nodes)) 0
    rwa [← countSurv_flatten, hj, Nat.zero_add] at this

/-- The identity transform. -/
def idMat : Mat4 := ⟨⟨1, 0, 0, 0⟩, ⟨0, 1, 0, 0⟩, ⟨0, 0, 1, 0⟩, ⟨0, 0, 0, 1⟩⟩

/-- A surviving record with key (1, 10) at paint index 0. -/
def c2nA : ExtractedUiNode :=
  ⟨0, idMat, ⟨1, 1, 1, 1⟩, ⟨⟨0, 0⟩, ⟨2, 2⟩⟩, 1, 10, none, none, false, false⟩

/-- A record with key (2, 10) at paint index 1 whose clip rect lies entirely to
the side of its quad, so the cull test discards it. -/
def c2nB : ExtractedUiNode :=
  ⟨1, idMat, ⟨1, 1, 1, 1⟩, ⟨⟨0, 0⟩, ⟨2, 2⟩⟩, 2, 10, none,
    some ⟨⟨5, 5⟩, ⟨6, 6⟩⟩, false, false⟩

/-- A surviving record with key (1, 10) at paint index 2. -/
def c2nC : ExtractedUiNode :=
  ⟨2, idMat, ⟨1, 1, 1, 1⟩, ⟨⟨0, 0⟩, ⟨2, 2⟩⟩, 1, 10, none, none, false, false⟩

/-- C2 counterexample: with a run of a different key between two same-key runs
entirely culled away by the clip test, `prepare_uinodes` emits two adjacent
batches with the equal key (1, 10) — refuting the claim that no two batches
adjacent in emission order share their (image, material) pair even when a run
between them is culled away. -/
theorem c2_counterexample :
    (prepare_uinodes [c2nA, c2nB, c2nC]).1.map batchKey = [(1, 10), (1, 10)] ∧
    ¬ List.Chain' (fun a b => batchKey a ≠ batchKey b)
        (prepare_uinodes [c2nA, c2nB, c2nC]).1 := by
  have h1 : (prepare_uinodes [c2nA, c2nB, c2nC]).1.map batchKey = [(1, 10), (1, 10)] := by
    norm_num [prepare_uinodes, sortNodes, List.insertionSort, List.orderedInsert,
      stackLe, c2nA, c2nB, c2nC, processNode, updateBatchKey, culled,
      positionsDiffOf, clipDeltas, positionsOf, QUAD_VERTEX_POSITIONS,
      Corners.map, Mat4.mulPoint, rectSize, transformedRectSize,
      Mat4.transformVector3, zeroDeltas, idMat, closeBatch, batchKey]
  refine ⟨h1, ?_⟩
  intro hch
  have h2 := (List.chain'_map batchKey).mpr hch
  rw [h1] at h2
  simp [List.chain'_cons] at h2

/-- C2 amended: every emitted batch's vertex range is non-empty, and when no
record of the sorted sequence is culled by the clip test, no two batches
adjacent in emission order share their (image, material) pair.  (The original
claim extended the second part to frames where an intervening run is entirely
culled; `c2_counterexample` shows the code then can emit adjacent equal-key
batches.) -/
theorem c2_batch_invariants (nodes : List ExtractedUiNode) :
    (∀ b ∈ (prepare_uinodes nodes).1, b.rangeStart < b.rangeEnd) ∧
    ((∀ n ∈ sortNodes nodes, culled n = false) →
      List.Chain' (fun a b => batchKey a ≠ batchKey b) (prepare_uinodes nodes).1) := by
  have hmain := prepare_uinodes_batchAbs nodes
  obtain ⟨hj, hm, hc⟩ :=
    chunkRuns_facts_aux (sortNodes nodes).length (sortNodes nodes) (Nat.le_refl _)
  constructor
  · intro b hb
    have hmem : batchAbs b ∈ runsSpec 0 (chunkRuns (sortNodes nodes)) := by
      rw [← hmain]
      exact List.mem_map_of_mem batchAbs hb
    exact runsSpec_lo_lt_hi _ 0 _ hmem
  · intro hall
    have hallr : ∀ r ∈ chunkRuns (sortNodes nodes), countSurv r ≠ 0 := by
      intro r hr
      obtain ⟨hne, _⟩ := hm r hr
      match r, hne with
      | n :: r2, _ =>
        have hn : n ∈ sortNodes nodes := by
          rw [← hj]
          exact List.mem_flatten.mpr ⟨n :: r2, hr, List.mem_cons_self n r2⟩
        rw [countSurv_cons, hall n hn]
        simp
    have hkeys : (prepare_uinodes nodes).1.map batchKey =
        (chunkRuns (sortNodes nodes)).map runKey := by
      have hK := runsSpec_keys_total _ hallr 0
      rw [← hmain, List.map_map] at hK
      exact hK
    have hchain : List.Chain' (fun a b => a ≠ b)
        ((chunkRuns (sortNodes nodes)).map runKey) :=
      (List.chain'_map runKey).mpr hc
    rw [← hkeys] at hchain
    exact (List.chain'_map batchKey).mp hchain

/-- C2 amended, witness: on a concrete two-record frame with no culling the
batch ranges are non-empty and adjacent batches have distinct keys. -/
theorem c2_batch_invariants_witness :
    (∀ b ∈ (prepare_uinodes [c2nA, c2nC]).1, b.rangeStart < b.rangeEnd) ∧
    List.Chain' (fun a b => batchKey a ≠ batchKey b)
      (prepare_uinodes [c2nA, c2nC]).1 :=
  ⟨(c2_batch_invariants [c2nA, c2nC]).1,
   (c2_batch_invariants [c2nA, c2nC]).2 (by
      have hs : sortNodes [c2nA, c2nC] = [c2nA, c2nC] := by
        norm_num [sortNodes, List.insertionSort, List.orderedInsert, stackLe,
          c2nA, c2nC]
      rw [hs]
      intro n hn
      rcases List.mem_cons.mp hn with h | h
      · subst h
        norm_num [culled, c2nA, idMat, positionsDiffOf, zeroDeltas,
          transformedRectSize, Mat4.transformVector3, rectSize]
      · rcases List.mem_cons.mp h with h2 | h2
        · subst h2
          norm_num [culled, c2nC, idMat, positionsDiffOf, zeroDeltas,
            transformedRectSize, Mat4.transformVector3, rectSize]
        · simp at h2)⟩

/-- `updateBatchKey` always leaves the new record's handles as the current
batch key (they already were the current key if no change fired). -/
theorem updateBatchKey_cur (st : PrepState) (n : ExtractedUiNode) :
    (updateBatchKey st n).curImage = n.image ∧
      (updateBatchKey st n).curMaterial = n.material := by
  unfold updateBatchKey
  split
  · split <;> simp
  · next h =>
    push_neg at h
    simp [h.1, h.2]

/-- C7 amended: (a) whenever `transform.x_axis[1] ≠ 0` — in particular for any
depth-axis rotation by an angle whose sine is non-zero — the cull test is
skipped and the record survives; (b) a culled record leaves the loop state
exactly as the batch bookkeeping left it: no vertices are appended, the running
end does not advance, yet the batch-key change is registered (the current key
becomes the record's key, and a previously open batch of a different key is
emitted); (c) when `transform.x_axis[1] = 0`, the record is culled exactly when
the clip deltas collapse the transformed width or height to zero or less.
(The original claim said the cull test is skipped for every non-zero depth-axis
rotation; `c7_counterexample` refutes this for rotation by π, whose sine is 0.) -/
theorem c7_cull_behavior :
    (∀ n : ExtractedUiNode, n.transform.x_axis.y ≠ 0 → culled n = false) ∧
    (∀ (st : PrepState) (n : ExtractedUiNode), culled n = true →
      processNode st n = updateBatchKey st n ∧
      (processNode st n).stop = st.stop ∧
      (processNode st n).verts = st.verts ∧
      (processNode st n).curImage = n.image ∧
      (processNode st n).curMaterial = n.material) ∧
    (∀ n : ExtractedUiNode, n.transform.x_axis.y = 0 →
      (culled n = true ↔
        ((transformedRectSize n).x ≤
            (positionsDiffOf n).c0.x - (positionsDiffOf n).c1.x ∨
         (transformedRectSize n).y ≤
            (positionsDiffOf n).c1.y - (positionsDiffOf n).c2.y))) := by
  refine ⟨?_, ?_, ?_⟩
  · intro n hx
    simp [culled, hx]
  · intro st n hc
    have hpn : processNode st n = updateBatchKey st n := by
      simp [processNode, hc]
    obtain ⟨hv, hstop, _⟩ := updateBatchKey_verts_stop st n
    obtain ⟨hci, hcm⟩ := updateBatchKey_cur st n
    rw [hpn]
    exact ⟨rfl, hstop, hv, hci, hcm⟩
  · intro n hx
    simp [culled, hx]

/-- A depth-axis rotation matrix with cosine `c` and sine `s`, as `glam`
builds it (columns `(c, s, 0, 0)`, `(-s, c, 0, 0)`, identity elsewhere). -/
def rotZMat (c s : ℚ) : Mat4 :=
  ⟨⟨c, s, 0, 0⟩, ⟨-s, c, 0, 0⟩, ⟨0, 0, 1, 0⟩, ⟨0, 0, 0, 1⟩⟩

/-- A record whose transform is the rotation by π about the depth axis
(cosine −1, sine 0), with no clip rect at all. -/
def c7piNode : ExtractedUiNode :=
  ⟨0, rotZMat (-1) 0, ⟨1, 1, 1, 1⟩, ⟨⟨0, 0⟩, ⟨2, 2⟩⟩, 1, 10, none, none,
    false, false⟩

/-- C7 counterexample: the rotation by π about the depth axis is a non-zero
rotation (its cosine/sine pair `(-1, 0)` satisfies `c² + s² = 1` and differs
from the identity's `(1, 0)`), yet `transform.x_axis[1] = sin = 0`, so the cull
test is NOT skipped: the transformed rect size is negative and the record is
discarded even though its clip field is `none`, and the frame emits no batch
and no vertex — refuting "non-zero rotation about the depth axis skips the
cull test (the quad is kept)". -/
theorem c7_counterexample :
    c7piNode.transform = rotZMat (-1) 0 ∧
    (-1 : ℚ) * (-1) + 0 * 0 = 1 ∧
    ¬ ((-1 : ℚ) = 1 ∧ (0 : ℚ) = 0) ∧
    c7piNode.clip = none ∧
    culled c7piNode = true ∧
    prepare_uinodes [c7piNode] = ([], []) := by
  refine ⟨rfl, by norm_num, by norm_num, rfl, ?_, ?_⟩
  · norm_num [culled, c7piNode, rotZMat, transformedRectSize,
      Mat4.transformVector3, rectSize, positionsDiffOf, zeroDeltas]
  · norm_num [prepare_uinodes, sortNodes, List.insertionSort, c7piNode,
      processNode, updateBatchKey, culled, rotZMat, transformedRectSize,
      Mat4.transformVector3, rectSize, positionsDiffOf, zeroDeltas, closeBatch]

/-- C7 amended, witness: a record rotated by π/2 (sine 1) survives even though
its clip rect collapses it entirely; a concrete culled record leaves the state
exactly as the bookkeeping left it. -/
theorem c7_cull_behavior_witness :
    culled ⟨0, rotZMat 0 1, ⟨1, 1, 1, 1⟩, ⟨⟨0, 0⟩, ⟨2, 2⟩⟩, 1, 10, none,
      some ⟨⟨5, 5⟩, ⟨6, 6⟩⟩, false, false⟩ = false ∧
    (processNode ⟨0, 0, 1, 10, 0, [], []⟩ c2nB =
        updateBatchKey ⟨0, 0, 1, 10, 0, [], []⟩ c2nB ∧
      (processNode ⟨0, 0, 1, 10, 0, [], []⟩ c2nB).stop = 0 ∧
      (processNode ⟨0, 0, 1, 10, 0, [], []⟩ c2nB).verts = [] ∧
      (processNode ⟨0, 0, 1, 10, 0, [], []⟩ c2nB).curImage = c2nB.image ∧
      (processNode ⟨0, 0, 1, 10, 0, [], []⟩ c2nB).curMaterial = c2nB.material) :=
  ⟨c7_cull_behavior.1 _ (by norm_num [rotZMat]),
   c7_cull_behavior.2.1 ⟨0, 0, 1, 10, 0, [], []⟩ c2nB (by
      norm_num [culled, c2nB, idMat, positionsDiffOf, clipDeltas, positionsOf,
        QUAD_VERTEX_POSITIONS, Corners.map, Mat4.mulPoint, rectSize,
        transformedRectSize, Mat4.transformVector3])⟩

/-- A translation composed with a positive per-axis scale (an axis-aligned,
non-rotating transform), in `glam` column layout. -/
def scaleTranslate (sx sy sz tx ty tz : ℚ) : Mat4 :=
  ⟨⟨sx, 0, 0, 0⟩, ⟨0, sy, 0, 0⟩, ⟨0, 0, sz, 0⟩, ⟨tx, ty, tz, 1⟩⟩

/-- The clip rect contains all four corner positions. -/
def containsAll (c : Rect) (ps : Corners Vec3) : Prop :=
  (c.min.x ≤ ps.c0.x ∧ ps.c0.x ≤ c.max.x ∧ c.min.y ≤ ps.c0.y ∧ ps.c0.y ≤ c.max.y) ∧
  (c.min.x ≤ ps.c1.x ∧ ps.c1.x ≤ c.max.x ∧ c.min.y ≤ ps.c1.y ∧ ps.c1.y ≤ c.max.y) ∧
  (c.min.x ≤ ps.c2.x ∧ ps.c2.x ≤ c.max.x ∧ c.min.y ≤ ps.c2.y ∧ ps.c2.y ≤ c.max.y) ∧
  (c.min.x ≤ ps.c3.x ∧ ps.c3.x ≤ c.max.x ∧ c.min.y ≤ ps.c3.y ∧ ps.c3.y ≤ c.max.y)

/-- The clip deltas only point inward for a standard-orientation quad: corner 0
(min-x/min-y) moves in +x/+y, corner 1 (max-x/min-y) in −x/+y, corner 2
(max-x/max-y) in −x/−y, corner 3 (min-x/max-y) in +x/−y. -/
def inwardDeltas (d : Corners Vec2) : Prop :=
  0 ≤ d.c0.x ∧ 0 ≤ d.c0.y ∧ d.c1.x ≤ 0 ∧ 0 ≤ d.c1.y ∧
  d.c2.x ≤ 0 ∧ d.c2.y ≤ 0 ∧ 0 ≤ d.c3.x ∧ d.c3.y ≤ 0

def minXOf (ps : Corners Vec3) : ℚ := min (min ps.c0.x ps.c1.x) (min ps.c2.x ps.c3.x)
def maxXOf (ps : Corners Vec3) : ℚ := max (max ps.c0.x ps.c1.x) (max ps.c2.x ps.c3.x)
def minYOf (ps : Corners Vec3) : ℚ := min (min ps.c0.y ps.c1.y) (min ps.c2.y ps.c3.y)
def maxYOf (ps : Corners Vec3) : ℚ := max (max ps.c0.y ps.c1.y) (max ps.c2.y ps.c3.y)

/-- Every corner of `qs` lies inside the axis-aligned bounding box of `ps`. -/
def withinAABB (ps qs : Corners Vec3) : Prop :=
  (minXOf ps ≤ qs.c0.x ∧ qs.c0.x ≤ maxXOf ps ∧
    minYOf ps ≤ qs.c0.y ∧ qs.c0.y ≤ maxYOf ps) ∧
  (minXOf ps ≤ qs.c1.x ∧ qs.c1.x ≤ maxXOf ps ∧
    minYOf ps ≤ qs.c1.y ∧ qs.c1.y ≤ maxYOf ps) ∧
  (minXOf ps ≤ qs.c2.x ∧ qs.c2.x ≤ maxXOf ps ∧
    minYOf ps ≤ qs.c2.y ∧ qs.c2.y ≤ maxYOf ps) ∧
  (minXOf ps ≤ qs.c3.x ∧ qs.c3.x ≤ maxXOf ps ∧
    minYOf ps ≤ qs.c3.y ∧ qs.c3.y ≤ maxYOf ps)

theorem add_max_sub (m v : ℚ) : v + max (m - v) 0 = max m v := by
  rcases le_total m v with h | h
  · rw [max_eq_right (sub_nonpos.mpr h), max_eq_right h, add_zero]
  · rw [max_eq_left (sub_nonneg.mpr h), max_eq_left h]
    ring

theorem add_min_sub (m v : ℚ) : v + min (m - v) 0 = min m v := by
  rcases le_total m v with h | h
  · rw [min_eq_left (sub_nonpos.mpr h), min_eq_left h]
    ring
  · rw [min_eq_right (sub_nonneg.mpr h), min_eq_right h, add_zero]

/-- One-dimensional core of the clip math: for a surviving extent `lo < hi`,
the two clipped endpoints `lo + max (cmin − lo) 0` and `hi + min (cmax − hi) 0`
both stay inside `[lo, hi]`. -/
theorem clip1d (lo hi cmin cmax : ℚ) (hlt : lo < hi)
    (hs : max (cmin - lo) 0 - min (cmax - hi) 0 < hi - lo) :
    lo ≤ lo + max (cmin - lo) 0 ∧ lo + max (cmin - lo) 0 ≤ hi ∧
    lo ≤ hi + min (cmax - hi) 0 ∧ hi + min (cmax - hi) 0 ≤ hi := by
  have h1 : (0 : ℚ) ≤ max (cmin - lo) 0 := le_max_right _ _
  have h2 : min (cmax - hi) 0 ≤ 0 := min_le_right _ _
  exact ⟨by linarith, by linarith, by linarith, by linarith⟩

/-- The corner positions a scale-and-translate transform produces from a rect
of width `w` and height `h`. -/
def stCorners (sx sy tx ty tz w h : ℚ) : Corners Vec3 :=
  ⟨⟨tx - sx * w / 2, ty - sy * h / 2, tz⟩,
   ⟨tx + sx * w / 2, ty - sy * h / 2, tz⟩,
   ⟨tx + sx * w / 2, ty + sy * h / 2, tz⟩,
   ⟨tx - sx * w / 2, ty + sy * h / 2, tz⟩⟩

theorem positionsOf_st (n : ExtractedUiNode) (sx sy sz tx ty tz : ℚ)
    (htr : n.transform = scaleTranslate sx sy sz tx ty tz) :
    positionsOf n = stCorners sx sy tx ty tz
      (n.rect.max.x - n.rect.min.x) (n.rect.max.y - n.rect.min.y) := by
  simp only [positionsOf, QUAD_VERTEX_POSITIONS, Corners.map, Mat4.mulPoint,
    scaleTranslate, rectSize, stCorners, htr]
  simp only [Corners.mk.injEq, Vec3.mk.injEq]
  and_intros <;> ring

theorem transformedRectSize_st (n : ExtractedUiNode) (sx sy sz tx ty tz : ℚ)
    (htr : n.transform = scaleTranslate sx sy sz tx ty tz) :
    transformedRectSize n =
      ⟨sx * (n.rect.max.x - n.rect.min.x), sy * (n.rect.max.y - n.rect.min.y), sz⟩ := by
  simp only [transformedRectSize, Mat4.transformVector3, scaleTranslate, rectSize, htr]
  simp only [Vec3.mk.injEq]
  and_intros <;> ring

theorem minmax_st (sx sy tx ty tz w h : ℚ) (hx : 0 < sx * w) (hy : 0 < sy * h) :
    minXOf (stCorners sx sy tx ty tz w h) = tx - sx * w / 2 ∧
    maxXOf (stCorners sx sy tx ty tz w h) = tx + sx * w / 2 ∧
    minYOf (stCorners sx sy tx ty tz w h) = ty - sy * h / 2 ∧
    maxYOf (stCorners sx sy tx ty tz w h) = ty + sy * h / 2 := by
  have hA : tx - sx * w / 2 ≤ tx + sx * w / 2 := by linarith
  have hC : ty - sy * h / 2 ≤ ty + sy * h / 2 := by linarith
  refine ⟨?_, ?_, ?_, ?_⟩
  · simp only [minXOf, stCorners]
    rw [min_eq_left hA, min_comm (tx + sx * w / 2) (tx - sx * w / 2),
      min_eq_left hA, min_self]
  · simp only [maxXOf, stCorners]
    rw [max_eq_right hA, max_comm (tx + sx * w / 2) (tx - sx * w / 2),
      max_eq_right hA, max_self]
  · simp only [minYOf, stCorners]
    rw [min_self, min_self, min_eq_left hC]
  · simp only [maxYOf, stCorners]
    rw [max_self, max_self, max_eq_right hC]

/-- Scalar-level core of the amended C4 part: for a surviving, axis-aligned,
positively scaled quad, the deltas point inward and the clipped corners stay
in the unclipped bounding box. -/
theorem st_inward_within (sx sy tx ty tz w h : ℚ) (c : Rect)
    (hx : 0 < sx * w) (hy : 0 < sy * h)
    (hcx : max (c.min.x - (tx - sx * w / 2)) 0 -
        min (c.max.x - (tx + sx * w / 2)) 0 < sx * w)
    (hcy : max (c.min.y - (ty - sy * h / 2)) 0 -
        min (c.max.y - (ty + sy * h / 2)) 0 < sy * h) :
    inwardDeltas (clipDeltas c (stCorners sx sy tx ty tz w h)) ∧
    withinAABB (stCorners sx sy tx ty tz w h)
      (applyDeltas (stCorners sx sy tx ty tz w h)
        (clipDeltas c (stCorners sx sy tx ty tz w h))) := by
  obtain ⟨hminx, hmaxx, hminy, hmaxy⟩ := minmax_st sx sy tx ty tz w h hx hy
  have hltx : tx - sx * w / 2 < tx + sx * w / 2 := by linarith
  have hlty : ty - sy * h / 2 < ty + sy * h / 2 := by linarith
  obtain ⟨g1, g2, g3, g4⟩ :=
    clip1d (tx - sx * w / 2) (tx + sx * w / 2) c.min.x c.max.x hltx (by linarith)
  obtain ⟨g5, g6, g7, g8⟩ :=
    clip1d (ty - sy * h / 2) (ty + sy * h / 2) c.min.y c.max.y hlty (by linarith)
  constructor
  · simp only [inwardDeltas, clipDeltas, stCorners]
    exact ⟨le_max_right _ _, le_max_right _ _, min_le_right _ _, le_max_right _ _,
      min_le_right _ _, min_le_right _ _, le_max_right _ _, min_le_right _ _⟩
  · simp only [stCorners] at hminx hmaxx hminy hmaxy
    simp only [withinAABB, applyDeltas, clipDeltas, stCorners, hminx, hmaxx,
      hminy, hmaxy]
    exact ⟨⟨g1, g2, g5, g6⟩, ⟨g3, g4, g5, g6⟩, ⟨g3, g4, g7, g8⟩, ⟨g1, g2, g7, g8⟩⟩

/-- C4 amended: the clip adjustment of `prepare_uinodes` (i) is idempotent for
every clip rect and every quad, and (ii) produces exactly zero deltas whenever
the clip rect contains all four unclipped corners; and (iii) for every node
whose transform is a translation with positive per-axis scale (the axis-aligned
case the source's own comment scopes the approximation to) with a non-degenerate
rect, if the node survives the cull test then each per-corner delta only moves
its corner inward and every clipped corner lies within the axis-aligned
bounding box of the four unclipped corners.  (The original claim asserted (iii)
for EVERY node processed; `c4_counterexample` refutes that for a rotated node,
where the cull test is bypassed and a delta pushes a corner outward, out of the
unclipped bounding box.) -/
theorem c4_clip_adjustment :
    (∀ (c : Rect) (ps : Corners Vec3), clipOnce c (clipOnce c ps) = clipOnce c ps) ∧
    (∀ (c : Rect) (ps : Corners Vec3), containsAll c ps →
      clipDeltas c ps = zeroDeltas) ∧
    (∀ (n : ExtractedUiNode) (sx sy sz tx ty tz : ℚ),
      n.transform = scaleTranslate sx sy sz tx ty tz →
      0 < sx → 0 < sy →
      n.rect.min.x < n.rect.max.x → n.rect.min.y < n.rect.max.y →
      culled n = false →
      inwardDeltas (positionsDiffOf n) ∧
      withinAABB (positionsOf n) (positionsClippedOf n)) := by
  refine ⟨?_, ?_, ?_⟩
  · intro c ps
    simp only [clipOnce, applyDeltas, clipDeltas]
    simp only [add_max_sub, add_min_sub, Corners.mk.injEq, Vec3.mk.injEq]
    and_intros <;>
      first
        | trivial
        | (rw [← max_assoc, max_self])
        | (rw [← min_assoc, min_self])
  · intro c ps h
    obtain ⟨⟨h00, h01, h02, h03⟩, ⟨h10, h11, h12, h13⟩,
      ⟨h20, h21, h22, h23⟩, ⟨h30, h31, h32, h33⟩⟩ := h
    simp only [clipDeltas, zeroDeltas, Corners.mk.injEq, Vec2.mk.injEq]
    and_intros <;>
      first
        | (apply max_eq_right; linarith)
        | (apply min_eq_right; linarith)
  · intro n sx sy sz tx ty tz htr hsx hsy hw hh hcull
    have hx : 0 < sx * (n.rect.max.x - n.rect.min.x) := by
      apply mul_pos hsx; linarith
    have hy : 0 < sy * (n.rect.max.y - n.rect.min.y) := by
      apply mul_pos hsy; linarith
    have hp := positionsOf_st n sx sy sz tx ty tz htr
    have hts := transformedRectSize_st n sx sy sz tx ty tz htr
    have hx0 : n.transform.x_axis.y = 0 := by rw [htr]; rfl
    match hclip : n.clip with
    | none =>
      have hdiff : positionsDiffOf n = zeroDeltas := by
        simp [positionsDiffOf, hclip]
      constructor
      · simp [hdiff, inwardDeltas, zeroDeltas]
      · have hq : positionsClippedOf n = positionsOf n := by
          simp [positionsClippedOf, hdiff, applyDeltas, zeroDeltas]
        rw [hq, hp]
        obtain ⟨hminx, hmaxx, hminy, hmaxy⟩ :=
          minmax_st sx sy tx ty tz _ _ hx hy
        simp only [stCorners] at hminx hmaxx hminy hmaxy
        simp only [withinAABB, stCorners, hminx, hmaxx, hminy, hmaxy]
        and_intros <;> linarith
    | some c =>
      have hdiff : positionsDiffOf n =
          clipDeltas c (stCorners sx sy tx ty tz
            (n.rect.max.x - n.rect.min.x) (n.rect.max.y - n.rect.min.y)) := by
        simp [positionsDiffOf, hclip, hp]
      have hculliff : culled n = true ↔
          ((transformedRectSize n).x ≤
              (positionsDiffOf n).c0.x - (positionsDiffOf n).c1.x ∨
           (transformedRectSize n).y ≤
              (positionsDiffOf n).c1.y - (positionsDiffOf n).c2.y) := by
        simp [culled, hx0]
      have hnot : ¬ ((transformedRectSize n).x ≤
            (positionsDiffOf n).c0.x - (positionsDiffOf n).c1.x ∨
          (transformedRectSize n).y ≤
            (positionsDiffOf n).c1.y - (positionsDiffOf n).c2.y) := by
        rw [← hculliff, hcull]
        simp
      rw [hts, hdiff] at hnot
      simp only [clipDeltas, stCorners] at hnot
      push_neg at hnot
      obtain ⟨hcx, hcy⟩ := hnot
      have hmain := st_inward_within sx sy tx ty tz
        (n.rect.max.x - n.rect.min.x) (n.rect.max.y - n.rect.min.y) c hx hy
        (by linarith) (by linarith)
      constructor
      · rw [hdiff]; exact hmain.1
      · have hq : positionsClippedOf n =
            applyDeltas (stCorners sx sy tx ty tz
              (n.rect.max.x - n.rect.min.x) (n.rect.max.y - n.rect.min.y))
              (clipDeltas c (stCorners sx sy tx ty tz
                (n.rect.max.x - n.rect.min.x) (n.rect.max.y - n.rect.min.y))) := by
          rw [positionsClippedOf, hp, hdiff]
        rw [hq, hp]
        exact hmain.2

/-- A node rotated by π/2 about the depth axis (sine 1, so the cull test is
bypassed) with a clip rect lying beyond the quad's right edge. -/
def c4rotNode : ExtractedUiNode :=
  ⟨0, rotZMat 0 1, ⟨1, 1, 1, 1⟩, ⟨⟨0, 0⟩, ⟨2, 2⟩⟩, 1, 10, none,
    some ⟨⟨3, -5⟩, ⟨10, 5⟩⟩, false, false⟩

/-- C4 counterexample: for the π/2-rotated node `c4rotNode` (which survives,
since the cull test is bypassed), corner 0 sits at the quad's maximum x = 1,
yet its clip delta is +2 — moving the corner outward — and the clipped corner
lands at x = 3, strictly outside the bounding box of the four unclipped
corners.  This refutes "each per-corner clip delta only moves a corner inward"
and "every clipped corner position lies within the axis-aligned bounding box of
the four unclipped corners" as stated for every processed node. -/
theorem c4_counterexample :
    culled c4rotNode = false ∧
    (positionsOf c4rotNode).c0.x = 1 ∧
    maxXOf (positionsOf c4rotNode) = 1 ∧
    (positionsDiffOf c4rotNode).c0.x = 2 ∧
    (positionsClippedOf c4rotNode).c0.x = 3 ∧
    ¬ ((positionsClippedOf c4rotNode).c0.x ≤ maxXOf (positionsOf c4rotNode)) ∧
    ¬ withinAABB (positionsOf c4rotNode) (positionsClippedOf c4rotNode) := by
  have hps : positionsOf c4rotNode = ⟨⟨1, -1, 0⟩, ⟨1, 1, 0⟩, ⟨-1, 1, 0⟩, ⟨-1, -1, 0⟩⟩ := by
    norm_num [positionsOf, c4rotNode, rotZMat, QUAD_VERTEX_POSITIONS,
      Corners.map, Mat4.mulPoint, rectSize]
  have hd : positionsDiffOf c4rotNode = ⟨⟨2, 0⟩, ⟨0, 0⟩, ⟨0, 0⟩, ⟨4, 0⟩⟩ := by
    norm_num [positionsDiffOf, c4rotNode, clipDeltas, positionsOf, rotZMat,
      QUAD_VERTEX_POSITIONS, Corners.map, Mat4.mulPoint, rectSize]
  have hclipped : (positionsClippedOf c4rotNode).c0.x = 3 := by
    rw [positionsClippedOf, hps, hd]
    norm_num [applyDeltas]
  have hmax : maxXOf (positionsOf c4rotNode) = 1 := by
    rw [hps]
    norm_num [maxXOf]
  refine ⟨?_, ?_, hmax, ?_, hclipped, ?_, ?_⟩
  · norm_num [culled, c4rotNode, rotZMat]
  · rw [hps]
  · rw [hd]
  · rw [hclipped, hmax]; norm_num
  · intro hw
    have := hw.1.2.1
    rw [hclipped, hmax] at this
    norm_num at this

/-- A clip rect containing the witness quad entirely. -/
def c4wRect : Rect := ⟨⟨-10, -10⟩, ⟨10, 10⟩⟩

/-- A concrete quad inside `c4wRect`. -/
def c4wPs : Corners Vec3 := ⟨⟨0, 0, 0⟩, ⟨1, 0, 0⟩, ⟨1, 1, 0⟩, ⟨0, 1, 0⟩⟩

/-- A surviving axis-aligned node, partially clipped. -/
def c4wNode : ExtractedUiNode :=
  ⟨0, scaleTranslate 1 1 1 0 0 0, ⟨1, 1, 1, 1⟩, ⟨⟨0, 0⟩, ⟨2, 2⟩⟩, 1, 10, none,
    some ⟨⟨0, 0⟩, ⟨1, 1⟩⟩, false, false⟩

/-- C4 amended, witness: the containment part at a concrete fully containing
clip rect, and the inward/bounding-box part at a concrete surviving
axis-aligned node. -/
theorem c4_clip_adjustment_witness :
    clipDeltas c4wRect c4wPs = zeroDeltas ∧
    (inwardDeltas (positionsDiffOf c4wNode) ∧
      withinAABB (positionsOf c4wNode) (positionsClippedOf c4wNode)) :=
  ⟨c4_clip_adjustment.2.1 c4wRect c4wPs (by
      norm_num [containsAll, c4wRect, c4wPs]),
   c4_clip_adjustment.2.2 c4wNode 1 1 1 0 0 0 rfl (by norm_num) (by norm_num)
     (by norm_num [c4wNode]) (by norm_num [c4wNode])
     (by norm_num [culled, c4wNode, scaleTranslate, positionsDiffOf, clipDeltas,
        positionsOf, QUAD_VERTEX_POSITIONS, Corners.map, Mat4.mulPoint, rectSize,
        transformedRectSize, Mat4.transformVector3])⟩

/-! ### Material preparation cache (ui_material.rs, `prepare_ui_materials`)

Material handles are `Nat` identifiers.  `RenderUiMaterials` is modelled by its
key set (a list of prepared handles), `PrepareNextFrameMaterials` by the queued
handle list.  Whether `as_bind_group` succeeds this frame or signals
`RetryNextUpdate` is abstracted by a per-frame oracle `prep : Nat → Bool`
(it depends only on external GPU-asset readiness). -/

/-- The persistent state of the material preparation stage across frames. -/
structure MatPrepState where
  cache : List Nat
  retryQueue : List Nat
deriving DecidableEq

/-- `HashMap::insert` on the prepared-materials key set. -/
def insertMat (cache : List Nat) (h : Nat) : List Nat :=
  h :: cache.filter fun k => k != h

/-- `HashMap::remove` on the prepared-materials key set. -/
def removeMat (cache : List Nat) (h : Nat) : List Nat :=
  cache.filter fun k => k != h

/-- One material prepared or re-queued (the two match arms at
ui_material.rs lines 190-203 and 210-224). -/
def prepStep (prep : Nat → Bool) (acc : List Nat × List Nat) (h : Nat) :
    List Nat × List Nat :=
  if prep h then (insertMat acc.1 h, acc.2) else (acc.1, acc.2 ++ [h])

/-- Embedding of one frame of `prepare_ui_materials` (ui_material.rs lines
179-226): first the retry queue taken from last frame, then the purge of
removed handles, then this frame's extracted materials; failures accumulate
into the next frame's retry queue. -/
def prepare_ui_materials (prep : Nat → Bool) (extracted removed : List Nat)
    (st : MatPrepState) : MatPrepState :=
  let afterQueued := st.retryQueue.foldl (prepStep prep) (st.cache, [])
  let afterRemoved := removed.foldl removeMat afterQueued.1
  let afterExtracted := extracted.foldl (prepStep prep) (afterRemoved, afterQueued.2)
  ⟨afterExtracted.1, afterExtracted.2⟩

theorem not_mem_removeMat_self (c : List Nat) (h : Nat) : h ∉ removeMat c h := by
  simp [removeMat]

theorem removeMat_preserves_not_mem (c : List Nat) (g h : Nat) (hm : h ∉ c) :
    h ∉ removeMat c g := by
  simp only [removeMat, List.mem_filter]
  intro hcontr
  exact hm hcontr.1

/-- An absent handle stays absent while removals fold. -/
theorem foldl_removeMat_preserves (l : List Nat) :
    ∀ (c : List Nat) (h : Nat), h ∉ c → h ∉ l.foldl removeMat c := by
  induction l with
  | nil => intro c h hm; simpa using hm
  | cons r t ih =>
    intro c h hm
    rw [List.foldl_cons]
    exact ih _ h (removeMat_preserves_not_mem c r h hm)

/-- After folding the removal list, every removed handle is absent. -/
theorem foldl_removeMat_removes (removed : List Nat) :
    ∀ (c : List Nat) (h : Nat), h ∈ removed → h ∉ removed.foldl removeMat c := by
  induction removed with
  | nil => intro c h hm; simp at hm
  | cons r t ih =>
    intro c h hm
    rw [List.foldl_cons]
    rcases List.mem_cons.mp hm with he | ht
    · subst he
      exact foldl_removeMat_preserves t _ h (not_mem_removeMat_self c h)
    · exact ih _ h ht

/-- Folding `prepStep` over a list not containing `h` never makes `h`
prepared. -/
theorem foldl_prepStep_preserves_not_mem (prep : Nat → Bool) (l : List Nat) :
    ∀ (acc : List Nat × List Nat) (h : Nat), h ∉ l → h ∉ acc.1 →
      h ∉ (l.foldl (prepStep prep) acc).1 := by
  induction l with
  | nil => intro acc h _ hm; simpa using hm
  | cons g t ih =>
    intro acc h hl hm
    rw [List.foldl_cons]
    have hg : h ≠ g := fun he => hl (he ▸ List.mem_cons_self g t)
    have ht : h ∉ t := fun hx => hl (List.mem_cons_of_mem g hx)
    apply ih _ h ht
    by_cases hp : prep g
    · simp only [prepStep, hp, if_true]
      simp only [insertMat, List.mem_cons, List.mem_filter]
      rintro (he | hf)
      · exact hg he
      · exact hm hf.1
    · simpa [prepStep, hp] using hm

/-- C5 counterexample: material 5 sits in the retry queue when its removal is
processed (its preparation still failing that frame).  The removal frame does
purge it — but the retry entry survives the purge, and on the NEXT frame, with
no created/modified event re-extracting the material, the retry succeeds and
re-inserts handle 5 into the prepared cache.  This refutes "a material whose
removal has been processed is not present in the cache at the end of that
frame or of any later frame unless a new created/modified event re-extracts
it (a pending retry entry for it cannot re-insert it after the purge)". -/
theorem c5_counterexample :
    (5 ∉ (prepare_ui_materials (fun _ => false) [] [5] ⟨[], [5]⟩).cache) ∧
    (prepare_ui_materials (fun _ => false) [] [5] ⟨[], [5]⟩).retryQueue = [5] ∧
    5 ∈ (prepare_ui_materials (fun _ => true) [] []
          (prepare_ui_materials (fun _ => false) [] [5] ⟨[], [5]⟩)).cache := by
  refine ⟨?_, ?_, ?_⟩ <;>
    simp [prepare_ui_materials, prepStep, insertMat, removeMat]

/-- C5 amended: within the frame that processes a removal, the purge is
absolute — any handle in this frame's removed list is absent from the prepared
cache when `prepare_ui_materials` finishes, unless this same frame's extracted
list re-inserts it.  In particular a retry entry processed this frame cannot
keep it in the cache past the purge, because the retry queue is drained before
the purge runs.  (Across later frames the guarantee fails: a still-pending
retry entry may re-insert the handle, see `c5_counterexample`.) -/
theorem c5_removed_purged (prep : Nat → Bool) (extracted removed : List Nat)
    (st : MatPrepState) (h : Nat) (hrem : h ∈ removed) (hext : h ∉ extracted) :
    h ∉ (prepare_ui_materials prep extracted removed st).cache := by
  unfold prepare_ui_materials
  apply foldl_prepStep_preserves_not_mem prep extracted _ h hext
  exact foldl_removeMat_removes removed _ h hrem

/-- C5 amended, witness: a removed handle that was both prepared and queued for
retry is gone at the end of the removal frame. -/
theorem c5_removed_purged_witness :
    5 ∉ (prepare_ui_materials (fun _ => true) [7] [5] ⟨[5], [5]⟩).cache :=
  c5_removed_purged (fun _ => true) [7] [5] ⟨[5], [5]⟩ 5 (by simp) (by simp)

/-! ### Queue stage (ui_material.rs, `queue_uinodes`) and draw commands
(render_pass.rs)

Handles are `Nat` identifiers.  The image bind-group cache
(`UiImageBindGroups`) is modelled by its key set, the per-view transparent
phase by the list of queued sort keys, the prepared-materials cache and the
GPU image cache (`RenderAssets<Image>`) by their key sets.  `.unwrap()` on a
fallible lookup is modelled by `Except`: `.error .unwrapFailed` is a panic. -/

/-- A lookup `.unwrap()` failed: the system panics. -/
inductive UnwrapPanic where
  | unwrapFailed
deriving DecidableEq

/-- `AssetEvent<Image>` as consumed by `queue_uinodes`. -/
inductive ImageEvent where
  | created (handle : Nat)
  | modified (handle : Nat)
  | removed (handle : Nat)
deriving DecidableEq

/-- The queue-owned state `queue_uinodes` can mutate. -/
structure QueueState where
  imageBindGroups : List Nat
  viewBindGroup : Bool
  phaseItems : List ℚ
deriving DecidableEq

/-- The image-event invalidation loop (ui_material.rs lines 455-463):
`Modified` and `Removed` evict the image's bind group, `Created` is ignored. -/
def applyImageEvent (cache : List Nat) (e : ImageEvent) : List Nat :=
  match e with
  | .created _ => cache
  | .modified h => cache.filter fun k => k != h
  | .removed h => cache.filter fun k => k != h

/-- One batch considered by `queue_uinodes` (ui_material.rs lines 481-537):
a batch whose material is not prepared for this material type is skipped
silently; otherwise the image bind group is fetched from the cache or created
from the GPU image — `gpu_images.get(&batch.image).unwrap()` (line 506) panics
when the GPU image is absent — and one phase item with the batch's depth as
sort key is added. -/
def queueBatchStep (renderMaterials gpuImages : List Nat) (st : QueueState)
    (b : UiBatch) : Except UnwrapPanic QueueState :=
  if b.material ∈ renderMaterials then
    if b.image ∈ st.imageBindGroups then
      .ok { st with phaseItems := st.phaseItems ++ [b.z] }
    else if b.image ∈ gpuImages then
      .ok { st with
        imageBindGroups := b.image :: st.imageBindGroups,
        phaseItems := st.phaseItems ++ [b.z] }
    else
      .error .unwrapFailed
  else
    .ok st

/-- Embedding of `queue_uinodes` for one view (ui_material.rs lines 438-540):
the image-event invalidation always runs first; everything else — view bind
group creation, pipeline specialization, bind-group creation, phase items — is
guarded by the presence of the global view uniform binding. -/
def queue_uinodes (events : List ImageEvent) (hasViewBinding : Bool)
    (renderMaterials gpuImages : List Nat) (batches : List UiBatch)
    (st : QueueState) : Except UnwrapPanic QueueState :=
  let st1 : QueueState :=
    { st with imageBindGroups := events.foldl applyImageEvent st.imageBindGroups }
  if hasViewBinding then
    batches.foldlM (queueBatchStep renderMaterials gpuImages)
      { st1 with viewBindGroup := true }
  else
    .ok st1

/-- Embedding of `SetUiTextureBindGroup::render` (render_pass.rs lines
176-187): `image_bind_groups.values.get(&batch.image).unwrap()` panics when
the bind group is absent. -/
def setUiTextureBindGroup (imageBindGroups : List Nat) (b : UiBatch) :
    Except UnwrapPanic Unit :=
  if b.image ∈ imageBindGroups then .ok () else .error .unwrapFailed

/-- Embedding of `SetUiMaterialBindGroup::render` (render_pass.rs lines
199-210): `materials.get(...).unwrap()` panics when the prepared material is
absent. -/
def setUiMaterialBindGroup (renderMaterials : List Nat) (b : UiBatch) :
    Except UnwrapPanic Unit :=
  if b.material ∈ renderMaterials then .ok () else .error .unwrapFailed

/-- A batch whose image is absent from the GPU image cache and from the
bind-group cache. -/
def c3Batch : UiBatch := ⟨0, 6, 7, 10, 0⟩

/-- C3: the claim (no unchecked lookup in queueing/drawing can panic; the
worst outcome is an empty layer) is what the spec requires, but the code
violates it: with material 10 prepared and image 7 not yet in the GPU image
cache — a legitimate not-ready state — `queue_uinodes` reaches
`gpu_images.get(&batch.image).unwrap()` and panics; likewise the draw-time
texture and material bind-group lookups are unchecked `.unwrap()`s that panic
on a missing cache entry. -/
theorem c3_unchecked_lookups_panic :
    queue_uinodes [] true [10] [] [c3Batch] ⟨[], false, []⟩ =
      .error .unwrapFailed ∧
    setUiTextureBindGroup [] c3Batch = .error .unwrapFailed ∧
    setUiMaterialBindGroup [] c3Batch = .error .unwrapFailed := by
  refine ⟨?_, ?_, ?_⟩ <;>
    simp [queue_uinodes, queueBatchStep, setUiTextureBindGroup,
      setUiMaterialBindGroup, c3Batch]

/-- C8 counterexample: with the view uniform binding absent but an image
`Modified` event pending, `queue_uinodes` still mutates queue-owned state — it
evicts the image's bind group from the cache — refuting "mutates no other
queue-owned state that frame". -/
theorem c8_counterexample :
    queue_uinodes [ImageEvent.modified 5] false [] [] [] ⟨[5], false, []⟩ =
      .ok ⟨[], false, []⟩ ∧
    (⟨[5], false, []⟩ : QueueState).imageBindGroups ≠ [] := by
  constructor
  · simp [queue_uinodes, applyImageEvent]
  · simp

/-- C8 amended: when the per-frame global view uniform binding is absent,
`queue_uinodes` returns successfully having added no phase item, created no
view bind group, and touched no batch; the only queue-owned state it still
mutates is the image bind-group cache, which shrinks by the pending
modified/removed image events (the invalidation loop runs before the binding
check).  In particular, with no pending events it mutates nothing at all. -/
theorem c8_no_view_binding_skips (events : List ImageEvent)
    (renderMaterials gpuImages : List Nat) (batches : List UiBatch)
    (st : QueueState) :
    queue_uinodes events false renderMaterials gpuImages batches st =
      .ok { st with
        imageBindGroups := events.foldl applyImageEvent st.imageBindGroups } ∧
    (events = [] →
      queue_uinodes events false renderMaterials gpuImages batches st = .ok st) := by
  constructor
  · simp [queue_uinodes]
  · intro he
    subst he
    simp [queue_uinodes]

/-- C8 amended, witness: concrete frame with the binding absent — one pending
event shrinks only the bind-group cache; with no events the state is returned
unchanged. -/
theorem c8_no_view_binding_skips_witness :
    queue_uinodes [ImageEvent.modified 5] false [3] [4] [c3Batch]
        ⟨[5, 6], false, [1]⟩ =
      .ok { (⟨[5, 6], false, [1]⟩ : QueueState) with
        imageBindGroups :=
          [ImageEvent.modified 5].foldl applyImageEvent [5, 6] } ∧
    queue_uinodes [] false [3] [4] [c3Batch] ⟨[5, 6], false, [1]⟩ =
      .ok ⟨[5, 6], false, [1]⟩ :=
  ⟨(c8_no_view_binding_skips [ImageEvent.modified 5] [3] [4] [c3Batch]
      ⟨[5, 6], false, [1]⟩).1,
   (c8_no_view_binding_skips [] [3] [4] [c3Batch] ⟨[5, 6], false, [1]⟩).2 rfl⟩

/-! ### Pass executor (render_pass.rs, `UiPassNode::run`) -/

/-- Embedding of `UiCameraConfig` as matched by `UiPassNode::run`
(render_pass.rs line 72). -/
structure UiCameraConfigE where
  show_ui : Bool
deriving DecidableEq

/-- The observable outcome of one `UiPassNode::run` invocation: whether a
render pass was opened and how many queued items were drawn. -/
structure RunOutcome where
  passOpened : Bool
  drawnItems : Nat
deriving DecidableEq

/-- Embedding of `UiPassNode::run` (render_pass.rs lines 53-97).  The input is
the result of the view query on the input entity: `none` when the entity lacks
the phase/target components (the `let-else` early return), otherwise the
queued phase items (their sort keys) and the optional camera UI config.  Every
modelled path returns `.ok`: a missing view, an empty phase, or explicitly
disabled UI all terminate without opening a pass and without drawing. -/
def uiPassRun (viewQuery : Option (List ℚ × Option UiCameraConfigE)) :
    Except Unit RunOutcome :=
  match viewQuery with
  | none => .ok ⟨false, 0⟩
  | some (items, camera_ui) =>
    if items.isEmpty then .ok ⟨false, 0⟩
    else if camera_ui = some ⟨false⟩ then .ok ⟨false, 0⟩
    else .ok ⟨true, items.length⟩

/-- C9: whenever the resolved view's transparent-UI phase has no queued items,
or the camera has UI rendering explicitly disabled (and also when the view
query itself fails), `UiPassNode::run` terminates successfully — a no-op `Ok`
result with no render pass opened and no draw issued, never an error. -/
theorem c9_pass_noop (items : List ℚ) (camera_ui : Option UiCameraConfigE)
    (hskip : items = [] ∨ camera_ui = some ⟨false⟩) :
    uiPassRun (some (items, camera_ui)) = .ok ⟨false, 0⟩ ∧
    uiPassRun none = .ok ⟨false, 0⟩ := by
  constructor
  · rcases hskip with he | hd
    · subst he
      simp [uiPassRun]
    · subst hd
      by_cases he : items.isEmpty <;> simp [uiPassRun, he]
  · rfl

/-- C9, witness: a view with two queued items but UI disabled, and an empty
phase, both produce the no-op `Ok` outcome. -/
theorem c9_pass_noop_witness :
    (uiPassRun (some ([1, 2], some ⟨false⟩)) = .ok ⟨false, 0⟩ ∧
      uiPassRun none = .ok ⟨false, 0⟩) ∧
    (uiPassRun (some ([], none)) = .ok ⟨false, 0⟩ ∧
      uiPassRun none = .ok ⟨false, 0⟩) :=
  ⟨c9_pass_noop [1, 2] (some ⟨false⟩) (Or.inr rfl),
   c9_pass_noop [] none (Or.inl rfl)⟩

/-! ### Node extraction (ui_material.rs, `extract_uinodes`) -/

/-- `DEFAULT_IMAGE_HANDLE` (the shared default image), as a distinguished
handle identifier. -/
def DEFAULT_IMAGE_HANDLE : Nat := 0

/-- The per-entity component data `extract_uinodes` queries: node size,
transform, background color (`w` = alpha), optional `UiImage` (texture handle
and flip flags), material handle, computed visibility, optional clip. -/
structure MainUiNode where
  calculated_size : Vec2
  transform : Mat4
  color : Vec4
  image : Option (Nat × Bool × Bool)
  material : Nat
  is_visible : Bool
  clip : Option Rect
deriving DecidableEq

/-- Embedding of the loop body of `extract_uinodes` (ui_material.rs lines
300-336) for one stack entry: skip invisible or fully transparent nodes; for
image-backed nodes skip while the texture asset is not loaded, else take its
handle and flip flags; nodes without an image use the default image handle
with both flips false. -/
def extractNode (images : List Nat) (stack_index : Nat) (m : MainUiNode) :
    Option ExtractedUiNode :=
  if !m.is_visible || decide (m.color.w = 0) then none
  else
    match m.image with
    | some (tex, fx, fy) =>
      if tex ∈ images then
        some ⟨stack_index, m.transform, m.color, ⟨⟨0, 0⟩, m.calculated_size⟩,
          tex, m.material, none, m.clip, fx, fy⟩
      else none
    | none =>
      some ⟨stack_index, m.transform, m.color, ⟨⟨0, 0⟩, m.calculated_size⟩,
        DEFAULT_IMAGE_HANDLE, m.material, none, m.clip, false, false⟩

/-- Embedding of `extract_uinodes`: walk the UI stack in order, with the
position as `stack_index`. -/
def extract_uinodes (images : List Nat) (ui_stack : List MainUiNode) :
    List ExtractedUiNode :=
  ui_stack.enum.filterMap fun p => extractNode images p.1 p.2

/-- C10: a visible, non-transparent node with no image component extracts to a
record whose texture is the shared default image handle with both flip flags
false; consequently any two such records that reference the same material
carry the same `(image, material)` batch key (and so can batch together). -/
theorem c10_imageless_default_handle (images : List Nat) (i : Nat)
    (m : MainUiNode) (hv : m.is_visible = true) (ha : m.color.w ≠ 0)
    (hi : m.image = none) :
    extractNode images i m =
      some ⟨i, m.transform, m.color, ⟨⟨0, 0⟩, m.calculated_size⟩,
        DEFAULT_IMAGE_HANDLE, m.material, none, m.clip, false, false⟩ ∧
    (∀ (j : Nat) (m2 : MainUiNode), m2.is_visible = true → m2.color.w ≠ 0 →
      m2.image = none → m2.material = m.material →
      Option.map nodeKey (extractNode images j m2) =
        Option.map nodeKey (extractNode images i m)) := by
  have hmain : ∀ (k : Nat) (g : MainUiNode), g.is_visible = true → g.color.w ≠ 0 →
      g.image = none →
      extractNode images k g =
        some ⟨k, g.transform, g.color, ⟨⟨0, 0⟩, g.calculated_size⟩,
          DEFAULT_IMAGE_HANDLE, g.material, none, g.clip, false, false⟩ := by
    intro k g hgv hga hgi
    simp [extractNode, hgv, hga, hgi]
  refine ⟨hmain i m hv ha hi, ?_⟩
  intro j m2 hv2 ha2 hi2 hmat
  rw [hmain i m hv ha hi, hmain j m2 hv2 ha2 hi2]
  simp [nodeKey, hmat]

/-- C10, witness: two concrete image-less nodes with material 10 extract to
records with the default image handle, no flips, and one shared batch key. -/
theorem c10_imageless_default_handle_witness :
    extractNode [] 0
        ⟨⟨2, 2⟩, idMat, ⟨1, 1, 1, 1⟩, none, 10, true, none⟩ =
      some ⟨0, idMat, ⟨1, 1, 1, 1⟩, ⟨⟨0, 0⟩, ⟨2, 2⟩⟩, DEFAULT_IMAGE_HANDLE, 10,
        none, none, false, false⟩ ∧
    Option.map nodeKey (extractNode [] 3
        ⟨⟨4, 4⟩, idMat, ⟨1, 1, 1, 1/2⟩, none, 10, true, none⟩) =
      Option.map nodeKey (extractNode [] 0
        ⟨⟨2, 2⟩, idMat, ⟨1, 1, 1, 1⟩, none, 10, true, none⟩) :=
  ⟨(c10_imageless_default_handle [] 0
      ⟨⟨2, 2⟩, idMat, ⟨1, 1, 1, 1⟩, none, 10, true, none⟩ rfl (by norm_num) rfl).1,
   (c10_imageless_default_handle [] 0
      ⟨⟨2, 2⟩, idMat, ⟨1, 1, 1, 1⟩, none, 10, true, none⟩ rfl (by norm_num) rfl).2
      3 ⟨⟨4, 4⟩, idMat, ⟨1, 1, 1, 1/2⟩, none, 10, true, none⟩ rfl (by norm_num)
      rfl rfl⟩

/-! ### Pipeline specialization (pipeline.rs, `UiPipelineKey`, and the
specialization cache) -/

/-- Embedding of `UiPipelineKey<M>` (pipeline.rs lines 84-120): the HDR flag
and the material's bind-group data (`M::Data`, abstracted as a type with
decidable equality).  The derived equality coincides with the source's
`PartialEq` impl, which compares `hdr` and `bind_group_data`. -/
structure UiPipelineKey (Data : Type) where
  hdr : Bool
  bind_group_data : Data
deriving DecidableEq

/-- Modelled from the spec: the specialized-pipeline cache
(`SpecializedRenderPipelines`, a `bevy_render` collaborator whose source is
not part of this tree).  Per §4.4 of the spec, it maps a key to a compiled
pipeline identity, "caching purely as a function of key equality — identical
keys never cause recompilation; missing keys synthesize a new pipeline lazily
on first request", each synthesis yielding a fresh pipeline identity.  The
cache is an association list plus a fresh-identity counter. -/
structure SpecializedPipelines (Data : Type) where
  entries : List (UiPipelineKey Data × Nat)
  nextId : Nat

/-- Modelled from the spec: one `specialize` request against the cache.
Returns the pipeline identity, the updated cache, and whether a new pipeline
was compiled. -/
def SpecializedPipelines.specialize {Data : Type} [DecidableEq Data]
    (c : SpecializedPipelines Data) (k : UiPipelineKey Data) :
    Nat × SpecializedPipelines Data × Bool :=
  match c.entries.find? fun e => decide (e.1 = k) with
  | some e => (e.2, c, false)
  | none => (c.nextId, ⟨(k, c.nextId) :: c.entries, c.nextId + 1⟩, true)

/-- Well-formedness of the modelled cache: every cached identity is below the
fresh counter, and entries are pairwise distinct in key and identity. -/
def SpecializedPipelines.wf {Data : Type} (c : SpecializedPipelines Data) : Prop :=
  (∀ e ∈ c.entries, e.2 < c.nextId) ∧
  c.entries.Pairwise fun a b => a.1 ≠ b.1 ∧ a.2 ≠ b.2

theorem specialize_preserves_wf {Data : Type} [DecidableEq Data]
    (c : SpecializedPipelines Data) (k : UiPipelineKey Data) (hwf : c.wf) :
    (c.specialize k).2.1.wf := by
  cases hf : c.entries.find? fun e => decide (e.1 = k) with
  | some e =>
    simp only [SpecializedPipelines.specialize, hf]
    exact hwf
  | none =>
    simp only [SpecializedPipelines.specialize, hf]
    obtain ⟨hlt, hpw⟩ := hwf
    constructor
    · intro e he
      rcases List.mem_cons.mp he with he1 | he2
      · subst he1
        exact Nat.lt_succ_self _
      · exact Nat.lt_succ_of_lt (hlt e he2)
    · rw [List.pairwise_cons]
      refine ⟨?_, ?_⟩
      · intro e he
        constructor
        · intro hk
          have := List.find?_eq_none.mp hf e he
          simp at this
          exact this hk.symm
        · exact Nat.ne_of_gt (hlt e he)
      · exact hpw.imp fun hab => hab

/-- C6: against the source's `UiPipelineKey` equality (hdr flag and material
bind-group data agree, pipeline.rs lines 89-98) and the spec-modelled
specialization cache: (i) requesting the same key twice returns the identical
cached pipeline identity, without recompiling and without touching the cache;
(ii) on a well-formed cache, two consecutive requests whose keys share the
bind-group data but differ in the HDR flag return distinct pipeline
identities. -/
theorem c6_pipeline_cache_roundtrip {Data : Type} [DecidableEq Data]
    (c : SpecializedPipelines Data) (hwf : c.wf) (k k2 : UiPipelineKey Data) :
    ((k = k2) ↔ (k.hdr = k2.hdr ∧ k.bind_group_data = k2.bind_group_data)) ∧
    ((c.specialize k).2.1.specialize k).1 = (c.specialize k).1 ∧
    ((c.specialize k).2.1.specialize k).2.2 = false ∧
    ((c.specialize k).2.1.specialize k).2.1 = (c.specialize k).2.1 ∧
    (k.bind_group_data = k2.bind_group_data → k.hdr ≠ k2.hdr →
      ((c.specialize k).2.1.specialize k2).1 ≠ (c.specialize k).1) := by
  have hkey : (k = k2) ↔ (k.hdr = k2.hdr ∧ k.bind_group_data = k2.bind_group_data) := by
    constructor
    · intro h
      subst h
      exact ⟨rfl, rfl⟩
    · intro h
      cases k
      cases k2
      simp only at h
      rw [h.1, h.2]
  have hsym : Symmetric fun (a b : UiPipelineKey Data × Nat) =>
      a.1 ≠ b.1 ∧ a.2 ≠ b.2 := fun a b hab => ⟨hab.1.symm, hab.2.symm⟩
  refine ⟨hkey, ?_⟩
  cases hf : c.entries.find? fun e => decide (e.1 = k) with
  | some e =>
    have he1 : e.1 = k := by
      have := List.find?_some hf
      simpa using this
    have hem : e ∈ c.entries := List.mem_of_find?_eq_some hf
    simp only [SpecializedPipelines.specialize, hf]
    refine ⟨trivial, trivial, trivial, ?_⟩
    intro hdata hhdr
    have hkk2 : k ≠ k2 := fun he => hhdr (congrArg UiPipelineKey.hdr he)
    cases hf2 : c.entries.find? fun e2 => decide (e2.1 = k2) with
    | some e2 =>
      simp only [SpecializedPipelines.specialize, hf2]
      have he21 : e2.1 = k2 := by
        have := List.find?_some hf2
        simpa using this
      have he2m : e2 ∈ c.entries := List.mem_of_find?_eq_some hf2
      have hne : e ≠ e2 := by
        intro hcontr
        exact hkk2 (he1 ▸ he21 ▸ congrArg Prod.fst hcontr)
      exact (hwf.2.forall hsym hem he2m hne).2.symm
    | none =>
      simp only [SpecializedPipelines.specialize, hf2]
      exact Nat.ne_of_gt (hwf.1 e hem)
  | none =>
    have hself : (fun e2 => decide (e2.1 = k)) ((k, c.nextId) : UiPipelineKey Data × Nat) = true := by
      simp
    have hfind1 : (((k, c.nextId) : UiPipelineKey Data × Nat) :: c.entries).find?
        (fun e2 => decide (e2.1 = k)) = some (k, c.nextId) :=
      List.find?_cons_of_pos _ hself
    simp only [SpecializedPipelines.specialize, hf, hfind1]
    refine ⟨trivial, trivial, trivial, ?_⟩
    intro hdata hhdr
    have hkk2 : k ≠ k2 := fun he => hhdr (congrArg UiPipelineKey.hdr he)
    have hneg : ¬ ((fun e2 => decide (e2.1 = k2))
        ((k, c.nextId) : UiPipelineKey Data × Nat)) = true := by
      simp
      exact hkk2
    have hfind2 : (((k, c.nextId) : UiPipelineKey Data × Nat) :: c.entries).find?
        (fun e2 => decide (e2.1 = k2)) = c.entries.find? fun e2 => decide (e2.1 = k2) :=
      List.find?_cons_of_neg _ hneg
    cases hf2 : c.entries.find? fun e2 => decide (e2.1 = k2) with
    | some e2 =>
      rw [hf2] at hfind2
      simp only [SpecializedPipelines.specialize, hfind2]
      have he2m : e2 ∈ c.entries := List.mem_of_find?_eq_some hf2
      exact Nat.ne_of_lt (hwf.1 e2 he2m)
    | none =>
      rw [hf2] at hfind2
      simp only [SpecializedPipelines.specialize, hfind2]
      exact Nat.succ_ne_self c.nextId

/-- C6, witness: from the empty cache, requesting `(hdr := true, data := 0)`
twice returns the same identity with no recompilation, and a key differing
only in the HDR flag gets a different identity. -/
theorem c6_pipeline_cache_roundtrip_witness :
    (((⟨[], 0⟩ : SpecializedPipelines Nat).specialize ⟨true, 0⟩).2.1.specialize
        ⟨true, 0⟩).1 =
      ((⟨[], 0⟩ : SpecializedPipelines Nat).specialize ⟨true, 0⟩).1 ∧
    (((⟨[], 0⟩ : SpecializedPipelines Nat).specialize ⟨true, 0⟩).2.1.specialize
        ⟨true, 0⟩).2.2 = false ∧
    (((⟨[], 0⟩ : SpecializedPipelines Nat).specialize ⟨true, 0⟩).2.1.specialize
        ⟨false, 0⟩).1 ≠
      ((⟨[], 0⟩ : SpecializedPipelines Nat).specialize ⟨true, 0⟩).1 := by
  have hwf : (⟨[], 0⟩ : SpecializedPipelines Nat).wf := by
    constructor
    · intro e he
      simp at he
    · exact List.Pairwise.nil
  obtain ⟨_, h1, h2, _, h3⟩ :=
    c6_pipeline_cache_roundtrip (⟨[], 0⟩ : SpecializedPipelines Nat) hwf
      ⟨true, 0⟩ ⟨false, 0⟩
  exact ⟨h1, h2, h3 rfl (by simp)⟩
